import Mathlib

/-!
# galera: the epoll wrapper `gu::net::EPoll` and the fragmenting core

A shallow embedding of `galerautils/src/gu_epoll.cpp` and of the contract
declared in `gcs/src/gcs_core.h`.

Conventions of the embedding

* An event mask (`int` in the mask translators, `uint32_t` inside
  `struct epoll_event`) is represented by its 32-bit two's-complement bit
  pattern, a `Nat`; `&`, `|` and `~` are the bitwise operations on that
  pattern.  The conversions between `int` and `uint32_t` keep all 32 bits.
* `n_events`, descriptors and system-call results are `Int`.
* `std::vector<epoll_event>` is a `List`, the iterator `current` is an index
  into it (`begin()` is `0`, `end()` is the length).
* A member function that can throw returns the outcome together with the
  object as the throw leaves it.
* The kernel is not part of the program: `epoll_create`, `epoll_ctl` and
  `epoll_wait` are arguments of the operation that calls them.
* Log output is not part of the state; only the warning of
  `to_network_event_mask` is kept, as a flag next to the result.
-/

namespace gu.net

/-! ## Values from `<sys/epoll.h>` and `<cerrno>` (Linux) -/

def EPOLLIN : Nat := 0x001
def EPOLLOUT : Nat := 0x004
def EPOLLERR : Nat := 0x008
def EPOLLHUP : Nat := 0x010
def EPOLL_CTL_ADD : Int := 1
def EPOLL_CTL_DEL : Int := 2
def EPOLL_CTL_MOD : Int := 3
def EINTR : Int := 4

def INT_MIN : Int := -2147483648
def INT_MAX : Int := 2147483647

/-- Bitwise complement of a 32-bit pattern (`~x`). -/
def bit_not (x : Nat) : Nat := 0xFFFFFFFF ^^^ (x % 2 ^ 32)

/-- The conversion `static_cast<int>(n)` of a `size_t`: the low 32 bits, read as
two's complement. -/
def static_cast_int (n : Nat) : Int := (((n : Int) + 2 ^ 31) % 2 ^ 32) - 2 ^ 31

/-! ## What can end a call other than a normal return -/

/-- Ways a call ends abnormally: `error e` is `gu_throw_error(e)`, `fatal` is `gu_throw_fatal`,
`length_error` is the `std::length_error` of `std::vector::resize`.
`out_of_bounds` is not an exception: it marks a read through `current`
outside the vector, which the source does not check. -/
inductive Exception where
  | error (errno : Int)
  | fatal
  | length_error
  | out_of_bounds
  deriving DecidableEq, Repr

deriving instance DecidableEq for Except

/-! ## Declarations taken from headers that are not among the sources -/

/-- Names that `gu_epoll.cpp` takes from `gu_network.hpp`, `gu_datetime.hpp`
and `gu_convert.hpp`: the four `gu::net::E_*` flags, the number `MSec` of
nanoseconds in a millisecond, and `convert(x, int())`. -/
structure Headers where
  E_IN : Nat
  E_OUT : Nat
  E_ERROR : Nat
  E_CLOSED : Nat
  MSec : Int
  convert : Int → Except Exception Int

/-- The four `E_*` flags are distinct single bits. -/
def Headers.SingleBits (H : Headers) : Prop :=
  ∃ a b c d : Nat, H.E_IN = 2 ^ a ∧ H.E_OUT = 2 ^ b ∧ H.E_ERROR = 2 ^ c ∧ H.E_CLOSED = 2 ^ d ∧
    a ≠ b ∧ a ≠ c ∧ a ≠ d ∧ b ≠ c ∧ b ≠ d ∧ c ≠ d

/-- The conversion `convert(x, int())` is range checked: it returns every `x` that an `int` can
hold unchanged, and whatever it returns is the value it was given. -/
def Headers.ConvertChecked (H : Headers) : Prop :=
  (∀ x : Int, INT_MIN ≤ x → x ≤ INT_MAX → H.convert x = .ok x) ∧
  (∀ x y : Int, H.convert x = .ok y → y = x)

/-- Range-checked conversion to `int`, failing with `ERANGE` (34). -/
def checked_convert (x : Int) : Except Exception Int :=
  if INT_MIN ≤ x ∧ x ≤ INT_MAX then .ok x else .error (.error 34)

/-- A concrete choice of the header values: flags `1, 2, 16, 32`, a million nanoseconds per
millisecond, range-checked conversion. -/
def sampleHeaders : Headers :=
  { E_IN := 1, E_OUT := 2, E_ERROR := 16, E_CLOSED := 32,
    MSec := 1000000, convert := checked_convert }

/-! ## Mapping between NetworkEvent and EPoll events -/

/-- Source function `to_epoll_mask` (gu_epoll.cpp, lines 26-32). -/
def to_epoll_mask (H : Headers) (mask : Nat) : Nat :=
  let ret := 0
  let ret := ret ||| (if mask &&& H.E_IN ≠ 0 then EPOLLIN else 0)
  let ret := ret ||| (if mask &&& H.E_OUT ≠ 0 then EPOLLOUT else 0)
  ret

/-- Source function `to_network_event_mask` (gu_epoll.cpp, lines 34-47). The second component
tells whether the warning about unrecognized bits was logged. -/
def to_network_event_mask (H : Headers) (mask : Nat) : Nat × Bool :=
  let ret := 0
  let warned := decide (mask &&& bit_not (EPOLLIN ||| EPOLLOUT ||| EPOLLERR ||| EPOLLHUP) ≠ 0)
  let ret := ret ||| (if mask &&& EPOLLIN ≠ 0 then H.E_IN else 0)
  let ret := ret ||| (if mask &&& EPOLLOUT ≠ 0 then H.E_OUT else 0)
  let ret := ret ||| (if mask &&& EPOLLERR ≠ 0 then H.E_ERROR else 0)
  let ret := ret ||| (if mask &&& EPOLLHUP ≠ 0 then H.E_CLOSED else 0)
  (ret, warned)

/-! ## Data of the poller -/

/-- The kernel record `struct epoll_event`: ready or interest mask and the user word. -/
structure epoll_event where
  events : Nat
  data : Nat
  deriving DecidableEq, Repr

/-- The value type `PollEvent`, built as `PollEvent(fd, events, user_data)`. -/
structure PollEvent where
  fd : Int
  events : Nat
  user_data : Nat
  deriving DecidableEq, Repr

/-- A time span `gu::datetime::Period`, counted in nanoseconds (`long long`). -/
structure Period where
  nsecs : Int
  deriving DecidableEq, Repr

/-- Result of `epoll_create` or `epoll_ctl`: the return value and `errno`. -/
structure SysResult where
  ret : Int
  errno : Int
  deriving DecidableEq, Repr

/-- What one `epoll_wait` call does: it fails with an error number, or it stores the ready
events at the start of the buffer and reports how many they are. -/
inductive WaitOutcome where
  | failed (errno : Int)
  | ready (evs : List epoll_event)
  deriving DecidableEq, Repr

/-- Return value of the `epoll_wait` call. -/
def WaitOutcome.ret : WaitOutcome → Int
  | .failed _ => -1
  | .ready evs => (evs.length : Int)

/-- Events the `epoll_wait` call stored. -/
def WaitOutcome.stored : WaitOutcome → List epoll_event
  | .failed _ => []
  | .ready evs => evs

/-- The call `epoll_ctl(epfd, op, fd, &ev)`. -/
abbrev CtlCall := Int → Int → Int → epoll_event → SysResult

/-- The call `epoll_wait(epfd, buffer, maxevents, timeout)`. -/
abbrev WaitCall := Int → Int → Int → WaitOutcome

/-- Buffer after the kernel stored `evs` from its first slot on; slots past the end of the
buffer are never written. -/
def overwrite : List epoll_event → List epoll_event → List epoll_event
  | [], _ => []
  | b :: bs, [] => b :: bs
  | _ :: bs, e :: es => e :: overwrite bs es

/-- Largest size of a `std::vector<epoll_event>` (the record takes 12 bytes). -/
def vector_max_size : Nat := (2 ^ 63 - 1) / 12

/-- Subtraction of `size_t` values, which wraps below zero. -/
def size_t_sub (a b : Nat) : Nat := if b ≤ a then a - b else a + 2 ^ 64 - b

/-- The call `v.resize(n)`: growing appends zeroed records and fails with `length_error` past the
largest size, shrinking keeps the first `n` records. -/
def vector_resize (v : List epoll_event) (n : Nat) : Except Exception (List epoll_event) :=
  if v.length < n then
    if vector_max_size < n then .error .length_error
    else .ok (v ++ List.replicate (n - v.length) ⟨0, 0⟩)
  else .ok (v.take n)

/-- Members of `gu::net::EPoll`. -/
structure EPoll where
  e_fd : Int
  n_events : Int
  events : List epoll_event
  current : Nat
  deriving DecidableEq, Repr

/-! ## Operations of the poller -/

/-- Constructor `EPoll::EPoll` (lines 49-59); the name `EPoll.EPoll` would clash with the type
inside its own namespace. -/
def EPoll.construct (epoll_create : Int → SysResult) : Except Exception EPoll :=
  let events : List epoll_event := List.replicate 16 ⟨0, 0⟩
  let r := epoll_create 16
  if r.ret = -1 then .error (.error r.errno)
  else .ok { e_fd := r.ret, n_events := 0, events := events, current := events.length }

/-- Member `EPoll::insert` (lines 71-90). -/
def EPoll.insert (H : Headers) (s : EPoll) (epe : PollEvent) (epoll_ctl : CtlCall) :
    Except Exception Unit × EPoll :=
  let op := EPOLL_CTL_ADD
  let ev : epoll_event := { events := to_epoll_mask H epe.events, data := epe.user_data }
  let err := (epoll_ctl s.e_fd op epe.fd ev).ret
  if err ≠ 0 then (.error (.error (epoll_ctl s.e_fd op epe.fd ev).errno), s)
  else
    match vector_resize s.events (s.events.length + 1) with
    | .error e => (.error e, s)
    | .ok events => (.ok (), { s with events := events, current := events.length, n_events := 0 })

/-- Member `EPoll::erase` (lines 92-109); a failing `epoll_ctl` is only logged. -/
def EPoll.erase (s : EPoll) (epe : PollEvent) (epoll_ctl : CtlCall) :
    Except Exception Unit × EPoll :=
  let op := EPOLL_CTL_DEL
  let ev : epoll_event := { events := 0, data := 0 }
  let _err := (epoll_ctl s.e_fd op epe.fd ev).ret
  match vector_resize s.events (size_t_sub s.events.length 1) with
  | .error e => (.error e, s)
  | .ok events => (.ok (), { s with events := events, current := events.length, n_events := 0 })

/-- Member `EPoll::modify` (lines 111-127). -/
def EPoll.modify (H : Headers) (s : EPoll) (epe : PollEvent) (epoll_ctl : CtlCall) :
    Except Exception Unit × EPoll :=
  let op := EPOLL_CTL_MOD
  let ev : epoll_event := { events := to_epoll_mask H epe.events, data := epe.user_data }
  let err := (epoll_ctl s.e_fd op epe.fd ev).ret
  if err ≠ 0 then (.error (.error (epoll_ctl s.e_fd op epe.fd ev).errno), s)
  else (.ok (), s)

/-- The timeout computed on line 131 of `EPoll::poll`; the division of two `long long` truncates. -/
def poll_timeout (H : Headers) (p : Period) : Except Exception Int :=
  if p.nsecs < 0 then .ok (-1) else H.convert (Int.tdiv p.nsecs H.MSec)

/-- Member `EPoll::poll` (lines 129-149). -/
def EPoll.poll (H : Headers) (s : EPoll) (p : Period) (epoll_wait : WaitCall) :
    Except Exception Unit × EPoll :=
  match poll_timeout H p with
  | .error e => (.error e, s)
  | .ok timeout =>
    let w := epoll_wait s.e_fd (static_cast_int s.events.length) timeout
    let events := overwrite s.events w.stored
    let ret := w.ret
    if ret = -1 then
      (.ok (), { s with events := events, n_events := 0, current := events.length })
    else
      (.ok (), { s with events := events, n_events := ret, current := 0 })

/-- Member `EPoll::empty` (lines 151-154). -/
def EPoll.empty (s : EPoll) : Bool := decide (s.n_events = 0)

/-- Member `EPoll::front` (lines 156-164), a `const` member: it returns no new state. -/
def EPoll.front (H : Headers) (s : EPoll) : Except Exception PollEvent :=
  if s.n_events = 0 then .error .fatal
  else
    match s.events.get? s.current with
    | none => .error .out_of_bounds
    | some cur => .ok ⟨-1, (to_network_event_mask H cur.events).1, cur.data⟩

/-- Member `EPoll::pop_front` (lines 167-174). -/
def EPoll.pop_front (s : EPoll) : Except Exception Unit × EPoll :=
  if s.n_events = 0 then (.error .fatal, s)
  else (.ok (), { s with n_events := s.n_events - 1, current := s.current + 1 })

/-- State after `n` calls of `pop_front`. -/
def EPoll.pop_front_n : Nat → EPoll → EPoll
  | 0, s => s
  | n + 1, s => EPoll.pop_front_n n (EPoll.pop_front s).2

/-! ## Sequences of calls -/

/-- One call on the poller, with the kernel call it can make. -/
inductive Call where
  | insert (epe : PollEvent) (epoll_ctl : CtlCall)
  | erase (epe : PollEvent) (epoll_ctl : CtlCall)
  | modify (epe : PollEvent) (epoll_ctl : CtlCall)
  | poll (p : Period) (epoll_wait : WaitCall)
  | front
  | pop_front

/-- Outcome and state of one call; `front` leaves the state as it is. -/
def Call.apply (H : Headers) (s : EPoll) : Call → Except Exception Unit × EPoll
  | .insert epe epoll_ctl => s.insert H epe epoll_ctl
  | .erase epe epoll_ctl => s.erase epe epoll_ctl
  | .modify epe epoll_ctl => s.modify H epe epoll_ctl
  | .poll p epoll_wait => s.poll H p epoll_wait
  | .front =>
    match s.front H with
    | .ok _ => (.ok (), s)
    | .error e => (.error e, s)
  | .pop_front => s.pop_front

/-- A poller together with the number of `insert` calls that returned and the number of `erase`
calls made on it so far. -/
structure Tally where
  s : EPoll
  inserted : Nat
  erased : Nat

/-- Effect of one call on the poller and on the two counts. -/
def Tally.step (H : Headers) (t : Tally) (c : Call) : Tally :=
  match c with
  | .insert epe epoll_ctl =>
    match t.s.insert H epe epoll_ctl with
    | (.ok _, s) => { s := s, inserted := t.inserted + 1, erased := t.erased }
    | (.error _, s) => { s := s, inserted := t.inserted, erased := t.erased }
  | .erase epe epoll_ctl =>
    { s := (t.s.erase epe epoll_ctl).2, inserted := t.inserted, erased := t.erased + 1 }
  | c => { s := (c.apply H t.s).2, inserted := t.inserted, erased := t.erased }

/-- Effect of a sequence of calls. -/
def Tally.run (H : Headers) : Tally → List Call → Tally
  | t, [] => t
  | t, c :: cs => Tally.run H (t.step H c) cs

/-- The call respects the two conditions on a sequence: an `erase` comes only while fewer
`erase` calls than returned `insert` calls were made, and the `epoll_wait` of a `poll` reports no
more events than the `maxevents` it was given. -/
def Tally.admits (H : Headers) (t : Tally) : Call → Bool
  | .erase _ _ => decide (t.erased < t.inserted)
  | .poll p epoll_wait =>
    match poll_timeout H p with
    | .error _ => true
    | .ok timeout =>
      decide ((epoll_wait t.s.e_fd (static_cast_int t.s.events.length) timeout).ret ≤
        static_cast_int t.s.events.length)
  | _ => true

/-- Every call of the sequence respects the two conditions at the moment it is made. -/
def Tally.admitsAll (H : Headers) : Tally → List Call → Bool
  | _, [] => true
  | t, c :: cs => t.admits H c && Tally.admitsAll H (t.step H c) cs

/-! ## Sample values -/

/-- A poller with two pending events, the cursor on the first slot. -/
def pendingTwo : EPoll :=
  { e_fd := 3, n_events := 2, events := [⟨1, 7⟩, ⟨0x19, 8⟩, ⟨0, 0⟩], current := 0 }

/-- The poller as the constructor leaves it when `epoll_create` returns descriptor 3. -/
def freshPoller : EPoll :=
  { e_fd := 3, n_events := 0, events := List.replicate 16 ⟨0, 0⟩, current := 16 }

/-- An `epoll_ctl` that succeeds. -/
def ctlOk : CtlCall := fun _ _ _ _ => ⟨0, 0⟩

/-- An `epoll_ctl` that fails with `ENOENT` (2). -/
def ctlNoEnt : CtlCall := fun _ _ _ _ => ⟨-1, 2⟩

/-- A sample sequence of calls: register a descriptor, wait (two events arrive), read and drop
the first event, wait again (interrupted), change the interest, unregister. -/
def sampleCalls : List Call :=
  [ .insert ⟨5, 3, 7⟩ ctlOk,
    .poll ⟨5000000⟩ (fun _ _ _ => .ready [⟨1, 7⟩, ⟨0x19, 7⟩]),
    .front,
    .pop_front,
    .poll ⟨-1⟩ (fun _ _ _ => .failed EINTR),
    .modify ⟨5, 1, 7⟩ ctlOk,
    .poll ⟨0⟩ (fun _ _ _ => .ready [⟨4, 7⟩]),
    .erase ⟨5, 0, 0⟩ ctlOk ]

end gu.net

namespace gcs

/-! ## The fragmenting core declared in `gcs_core.h`

The header declares `gcs_core_set_pkt_size`, `gcs_core_send` and `gcs_core_recv`; their bodies
are not among the sources, so the three are modelled from the specification. -/

/-- Error kinds of the specification: packet size below the minimum (`TooSmall`), nothing
complete to deliver (`Retry`), broken fragment sequence (`Restart`). -/
inductive Error where
  | TooSmall
  | Retry
  | Restart
  deriving DecidableEq, Repr

/-- One fragment: the owning action within the sending session, the ordinal of the fragment,
the last-fragment flag, the type tag of the action, and the slice of payload bytes. -/
structure Fragment where
  act_id : Nat
  frag_no : Nat
  last : Bool
  act_type : Nat
  payload : List Nat
  deriving DecidableEq, Repr

/-- The part of the session that fragmentation uses: header overhead of one packet, the smallest
packet size that is accepted, the negotiated fragment payload size, and the next action id. -/
structure gcs_core where
  hdr_size : Nat
  min_pkt_size : Nat
  frag_size : Nat
  next_act_id : Nat
  deriving DecidableEq, Repr

/-- Modelled from the spec: the body of `gcs_core_set_pkt_size` is missing. It "recomputes the
maximum fragment payload from the requested on-wire packet size (accounting for header
overhead); returns the resulting usable fragment payload size, or an error if the size is below
the minimum viable fragment". -/
def gcs_core_set_pkt_size (core : gcs_core) (pkt_size : Nat) : Except Error Nat × gcs_core :=
  if pkt_size < core.min_pkt_size then (.error .TooSmall, core)
  else (.ok (pkt_size - core.hdr_size), { core with frag_size := pkt_size - core.hdr_size })

/-- Modelled from the spec: the splitting loop of `gcs_core_send`, which is missing. It cuts the
rest of the action into slices of at most `frag_size` bytes, numbers them, and flags the slice
that ends the action; `fuel` bounds the number of slices. -/
def fragment_loop (frag_size act_id act_type : Nat) : Nat → Nat → List Nat → List Fragment
  | 0, _, _ => []
  | fuel + 1, frag_no, rest =>
    if rest.length ≤ frag_size then [⟨act_id, frag_no, true, act_type, rest⟩]
    else
      ⟨act_id, frag_no, false, act_type, rest.take frag_size⟩ ::
        fragment_loop frag_size act_id act_type fuel (frag_no + 1) (rest.drop frag_size)

/-- Modelled from the spec: the body of `gcs_core_send` is missing. It "splits `action` into
fragments of at most the negotiated payload size; emits each fragment to the backend in order"
and "returns the number of application-payload bytes emitted". The result is that count, the
fragments handed to the backend, and the session. An action of `n` bytes needs at most `n + 1`
slices. -/
def gcs_core_send (core : gcs_core) (action : List Nat) (act_type : Nat) :
    Except Error Nat × List Fragment × gcs_core :=
  let frags := fragment_loop core.frag_size core.next_act_id act_type (action.length + 1) 0 action
  (.ok ((frags.map (fun f => f.payload.length)).sum), frags,
    { core with next_act_id := core.next_act_id + 1 })

/-- Modelled from the spec: the reassembly loop of `gcs_core_recv`, which is missing. It appends
the payload of each fragment that arrives with the expected ordinal, and completes the action at
the fragment flagged last. -/
def defrag_loop : Nat → List Nat → List Fragment → Except Error (List Nat × Nat)
  | _, _, [] => .error .Retry
  | expected, acc, f :: rest =>
    if f.frag_no ≠ expected then .error .Restart
    else if f.last then .ok (acc ++ f.payload, f.act_type)
    else defrag_loop (expected + 1) (acc ++ f.payload) rest

/-- Modelled from the spec: the body of `gcs_core_recv` is missing. It returns "a complete action
reassembled from backend fragments": the size of the action, its bytes and its type tag. The
argument is the sequence of fragments the backend delivers from one sender. -/
def gcs_core_recv (delivered : List Fragment) : Except Error (Nat × List Nat × Nat) :=
  match defrag_loop 0 [] delivered with
  | .error e => .error e
  | .ok (action, act_type) => .ok (action.length, action, act_type)

/-- A session whose packets carry 20 bytes of header and must be at least 21 bytes long. -/
def sampleCore : gcs_core :=
  { hdr_size := 20, min_pkt_size := 21, frag_size := 0, next_act_id := 0 }

end gcs

namespace gu.net

/-! ## Bit-level lemmas -/

theorem and_two_pow_ne_zero (m a : Nat) : m &&& 2 ^ a ≠ 0 ↔ m.testBit a = true := by
  rw [Nat.and_two_pow]
  cases h : m.testBit a <;> simp

theorem and_epoll_bits (m : Nat) :
    (m &&& EPOLLIN ≠ 0 ↔ m.testBit 0 = true) ∧ (m &&& EPOLLOUT ≠ 0 ↔ m.testBit 2 = true) ∧
    (m &&& EPOLLERR ≠ 0 ↔ m.testBit 3 = true) ∧ (m &&& EPOLLHUP ≠ 0 ↔ m.testBit 4 = true) := by
  refine ⟨?_, ?_, ?_, ?_⟩
  · exact and_two_pow_ne_zero m 0
  · exact and_two_pow_ne_zero m 2
  · exact and_two_pow_ne_zero m 3
  · exact and_two_pow_ne_zero m 4

theorem bool_submask : ∀ t0 t2 t3 t4 a b c d : Bool,
    (((t0 && a) || (t2 && b) || (t3 && c) || (t4 && d)) && (a || b || c || d)) =
      ((t0 && a) || (t2 && b) || (t3 && c) || (t4 && d)) := by
  decide

/-- Value of the translated ready mask, bit by bit, when the flags are single bits. -/
theorem testBit_to_network_event_mask (H : Headers) (a b c d : Nat)
    (ha : H.E_IN = 2 ^ a) (hb : H.E_OUT = 2 ^ b) (hc : H.E_ERROR = 2 ^ c)
    (hd : H.E_CLOSED = 2 ^ d) (m k : Nat) :
    ((to_network_event_mask H m).1).testBit k =
      ((m.testBit 0 && decide (a = k)) || (m.testBit 2 && decide (b = k)) ||
       (m.testBit 3 && decide (c = k)) || (m.testBit 4 && decide (d = k))) := by
  obtain ⟨h0, h2, h3, h4⟩ := and_epoll_bits m
  simp only [to_network_event_mask, ha, hb, hc, hd, Nat.testBit_or, Nat.zero_testBit,
    Bool.false_or, h0, h2, h3, h4]
  generalize m.testBit 0 = t0
  generalize m.testBit 2 = t2
  generalize m.testBit 3 = t3
  generalize m.testBit 4 = t4
  cases t0 <;> cases t2 <;> cases t3 <;> cases t4 <;> simp [Nat.testBit_two_pow]

/-- Two masks that agree on the four epoll bits agree on each of them. -/
theorem testBit_of_and_eq (m n : Nat)
    (h : n &&& (EPOLLIN ||| EPOLLOUT ||| EPOLLERR ||| EPOLLHUP) =
      m &&& (EPOLLIN ||| EPOLLOUT ||| EPOLLERR ||| EPOLLHUP)) :
    n.testBit 0 = m.testBit 0 ∧ n.testBit 2 = m.testBit 2 ∧ n.testBit 3 = m.testBit 3 ∧
      n.testBit 4 = m.testBit 4 := by
  have key : ∀ k, (n.testBit k && (29).testBit k) = (m.testBit k && (29).testBit k) := by
    intro k
    have := congrArg (fun x => Nat.testBit x k) h
    simpa [Nat.testBit_and, EPOLLIN, EPOLLOUT, EPOLLERR, EPOLLHUP] using this
  have t0 : (29).testBit 0 = true := by decide
  have t2 : (29).testBit 2 = true := by decide
  have t3 : (29).testBit 3 = true := by decide
  have t4 : (29).testBit 4 = true := by decide
  have k0 := key 0
  have k2 := key 2
  have k3 := key 3
  have k4 := key 4
  rw [t0, Bool.and_true, Bool.and_true] at k0
  rw [t2, Bool.and_true, Bool.and_true] at k2
  rw [t3, Bool.and_true, Bool.and_true] at k3
  rw [t4, Bool.and_true, Bool.and_true] at k4
  exact ⟨k0, k2, k3, k4⟩

/-! ## The mask translators -/

theorem sampleHeaders_singleBits : sampleHeaders.SingleBits :=
  ⟨0, 1, 4, 5, rfl, rfl, rfl, rfl, by decide, by decide, by decide, by decide, by decide,
    by decide⟩

/-- C4. For every ready mask `m`, `to_network_event_mask m` is made only of the four kinds
`E_IN`, `E_OUT`, `E_ERROR`, `E_CLOSED`; it holds `E_IN` iff `m` has `EPOLLIN`, `E_OUT` iff
`EPOLLOUT`, `E_ERROR` iff `EPOLLERR`, `E_CLOSED` iff `EPOLLHUP` (the flags being distinct single
bits); masks that agree on these four epoll bits give the same result, so every other bit is
dropped, and such a bit is exactly what makes the warning appear. -/
theorem to_network_event_mask_four_kinds (H : Headers) (hH : H.SingleBits) (m : Nat) :
    ((to_network_event_mask H m).1 &&& (H.E_IN ||| H.E_OUT ||| H.E_ERROR ||| H.E_CLOSED) =
      (to_network_event_mask H m).1) ∧
    ((to_network_event_mask H m).1 &&& H.E_IN ≠ 0 ↔ m &&& EPOLLIN ≠ 0) ∧
    ((to_network_event_mask H m).1 &&& H.E_OUT ≠ 0 ↔ m &&& EPOLLOUT ≠ 0) ∧
    ((to_network_event_mask H m).1 &&& H.E_ERROR ≠ 0 ↔ m &&& EPOLLERR ≠ 0) ∧
    ((to_network_event_mask H m).1 &&& H.E_CLOSED ≠ 0 ↔ m &&& EPOLLHUP ≠ 0) ∧
    (∀ n : Nat, n &&& (EPOLLIN ||| EPOLLOUT ||| EPOLLERR ||| EPOLLHUP) =
        m &&& (EPOLLIN ||| EPOLLOUT ||| EPOLLERR ||| EPOLLHUP) →
      (to_network_event_mask H n).1 = (to_network_event_mask H m).1) ∧
    ((to_network_event_mask H (m &&& (EPOLLIN ||| EPOLLOUT ||| EPOLLERR ||| EPOLLHUP))).1 =
      (to_network_event_mask H m).1) ∧
    ((to_network_event_mask H m).2 = true ↔
      m &&& bit_not (EPOLLIN ||| EPOLLOUT ||| EPOLLERR ||| EPOLLHUP) ≠ 0) := by
  obtain ⟨a, b, c, d, ha, hb, hc, hd, hab, hac, had, hbc, hbd, hcd⟩ := hH
  have tb := testBit_to_network_event_mask H a b c d ha hb hc hd
  obtain ⟨h0, h2, h3, h4⟩ := and_epoll_bits m
  have agree : ∀ n : Nat, n &&& (EPOLLIN ||| EPOLLOUT ||| EPOLLERR ||| EPOLLHUP) =
        m &&& (EPOLLIN ||| EPOLLOUT ||| EPOLLERR ||| EPOLLHUP) →
      (to_network_event_mask H n).1 = (to_network_event_mask H m).1 := by
    intro n hn
    obtain ⟨e0, e2, e3, e4⟩ := testBit_of_and_eq m n hn
    apply Nat.eq_of_testBit_eq
    intro k
    rw [tb n k, tb m k, e0, e2, e3, e4]
  refine ⟨?_, ?_, ?_, ?_, ?_, agree, ?_, ?_⟩
  · apply Nat.eq_of_testBit_eq
    intro k
    rw [Nat.testBit_and, tb m k, ha, hb, hc, hd]
    simp only [Nat.testBit_or, Nat.testBit_two_pow]
    exact bool_submask _ _ _ _ _ _ _ _
  · rw [ha, and_two_pow_ne_zero, tb m a, h0]
    simp [hab.symm, hac.symm, had.symm]
  · rw [hb, and_two_pow_ne_zero, tb m b, h2]
    simp [hab, hbc.symm, hbd.symm]
  · rw [hc, and_two_pow_ne_zero, tb m c, h3]
    simp [hac, hbc, hcd.symm]
  · rw [hd, and_two_pow_ne_zero, tb m d, h4]
    simp [had, hbd, hcd]
  · apply agree
    rw [Nat.and_assoc, Nat.and_self]
  · simp [to_network_event_mask]

/-- The hypothesis of `to_network_event_mask_four_kinds` holds of the sample flags; the theorem
is applied to the mask `0x2019`. -/
theorem to_network_event_mask_four_kinds_witness :
    sampleHeaders.SingleBits ∧
    (to_network_event_mask sampleHeaders 0x2019).1 &&& sampleHeaders.E_ERROR ≠ 0 :=
  ⟨sampleHeaders_singleBits,
    (to_network_event_mask_four_kinds sampleHeaders sampleHeaders_singleBits 0x2019).2.2.2.1.mpr
      (by decide)⟩

/-- For a single-bit flag, masking keeps the flag or nothing. -/
theorem and_two_pow_eq (m a : Nat) :
    m &&& 2 ^ a = if m &&& 2 ^ a ≠ 0 then 2 ^ a else 0 := by
  by_cases h : m &&& 2 ^ a ≠ 0
  · rw [if_pos h]
    rw [and_two_pow_ne_zero] at h
    rw [Nat.and_two_pow, h]
    simp
  · rw [if_neg h]
    exact not_not.mp h

/-- The four possible values of `to_epoll_mask`. -/
theorem to_epoll_mask_eq (H : Headers) (m : Nat) :
    to_epoll_mask H m =
      if m &&& H.E_IN ≠ 0 then (if m &&& H.E_OUT ≠ 0 then 5 else 1)
      else (if m &&& H.E_OUT ≠ 0 then 4 else 0) := by
  unfold to_epoll_mask
  by_cases h1 : m &&& H.E_IN ≠ 0 <;> by_cases h2 : m &&& H.E_OUT ≠ 0
  · simp only [if_pos h1, if_pos h2]; decide
  · simp only [if_pos h1, if_neg h2]; decide
  · simp only [if_neg h1, if_pos h2]; decide
  · simp only [if_neg h1, if_neg h2]; decide

/-- The translated interest mask has no bit besides `EPOLLIN` and `EPOLLOUT`. -/
theorem to_epoll_mask_no_other_bit (H : Headers) (m : Nat) :
    to_epoll_mask H m &&& bit_not (EPOLLIN ||| EPOLLOUT) = 0 := by
  rw [to_epoll_mask_eq]
  split_ifs <;> decide

/-- The ready mask translated from each possible value of `to_epoll_mask`. -/
theorem to_network_event_mask_const (H : Headers) :
    (to_network_event_mask H 5).1 = H.E_IN ||| H.E_OUT ∧
    (to_network_event_mask H 1).1 = H.E_IN ∧
    (to_network_event_mask H 4).1 = H.E_OUT ∧
    (to_network_event_mask H 0).1 = 0 := by
  refine ⟨?_, ?_, ?_, ?_⟩ <;>
    simp only [to_network_event_mask, EPOLLIN, EPOLLOUT, EPOLLERR, EPOLLHUP] <;>
    simp only [show ((5 : Nat) &&& 1 ≠ 0) = True from by decide,
      show ((5 : Nat) &&& 4 ≠ 0) = True from by decide,
      show ((5 : Nat) &&& 8 ≠ 0) = False from by decide,
      show ((5 : Nat) &&& 16 ≠ 0) = False from by decide,
      show ((1 : Nat) &&& 1 ≠ 0) = True from by decide,
      show ((1 : Nat) &&& 4 ≠ 0) = False from by decide,
      show ((1 : Nat) &&& 8 ≠ 0) = False from by decide,
      show ((1 : Nat) &&& 16 ≠ 0) = False from by decide,
      show ((4 : Nat) &&& 1 ≠ 0) = False from by decide,
      show ((4 : Nat) &&& 4 ≠ 0) = True from by decide,
      show ((4 : Nat) &&& 8 ≠ 0) = False from by decide,
      show ((4 : Nat) &&& 16 ≠ 0) = False from by decide,
      show ((0 : Nat) &&& 1 ≠ 0) = False from by decide,
      show ((0 : Nat) &&& 4 ≠ 0) = False from by decide,
      show ((0 : Nat) &&& 8 ≠ 0) = False from by decide,
      show ((0 : Nat) &&& 16 ≠ 0) = False from by decide,
      if_true, if_false, Nat.or_zero, Nat.zero_or]

/-- C8. For every interest mask `m`, `to_epoll_mask m` has `EPOLLIN` iff `m` has `E_IN`, `EPOLLOUT`
iff `m` has `E_OUT`, and no other bit; `insert` and `modify` consult `epoll_ctl` only with such a
mask, so two kernels that agree on masks without other bits are not told apart; translating back
gives `m` restricted to `E_IN | E_OUT` (the flags being distinct single bits), and the round trip
returns `m` exactly when `m` is made of readable and writable only. -/
theorem to_epoll_mask_keeps_in_out (H : Headers) (hH : H.SingleBits) (m : Nat) :
    (to_epoll_mask H m &&& EPOLLIN ≠ 0 ↔ m &&& H.E_IN ≠ 0) ∧
    (to_epoll_mask H m &&& EPOLLOUT ≠ 0 ↔ m &&& H.E_OUT ≠ 0) ∧
    to_epoll_mask H m &&& bit_not (EPOLLIN ||| EPOLLOUT) = 0 ∧
    (∀ (s : EPoll) (fd : Int) (tag : Nat) (k k' : CtlCall),
      (∀ epfd op fd' ev, ev.events &&& bit_not (EPOLLIN ||| EPOLLOUT) = 0 →
        k epfd op fd' ev = k' epfd op fd' ev) →
      s.insert H ⟨fd, m, tag⟩ k = s.insert H ⟨fd, m, tag⟩ k' ∧
      s.modify H ⟨fd, m, tag⟩ k = s.modify H ⟨fd, m, tag⟩ k') ∧
    (to_network_event_mask H (to_epoll_mask H m)).1 = m &&& (H.E_IN ||| H.E_OUT) ∧
    ((to_network_event_mask H (to_epoll_mask H m)).1 = m ↔ m &&& (H.E_IN ||| H.E_OUT) = m) := by
  obtain ⟨a, b, c, d, ha, hb, hc, hd, hab, hac, had, hbc, hbd, hcd⟩ := hH
  have back : (to_network_event_mask H (to_epoll_mask H m)).1 = m &&& (H.E_IN ||| H.E_OUT) := by
    have ea : m &&& H.E_IN = if m &&& H.E_IN ≠ 0 then H.E_IN else 0 := by
      rw [ha]; exact and_two_pow_eq m a
    have eb : m &&& H.E_OUT = if m &&& H.E_OUT ≠ 0 then H.E_OUT else 0 := by
      rw [hb]; exact and_two_pow_eq m b
    obtain ⟨c5, c1, c4, c0⟩ := to_network_event_mask_const H
    rw [Nat.and_or_distrib_left, to_epoll_mask_eq]
    by_cases h1 : m &&& H.E_IN ≠ 0 <;> by_cases h2 : m &&& H.E_OUT ≠ 0
    · rw [if_pos h1] at ea
      rw [if_pos h2] at eb
      simp only [if_pos h1, if_pos h2]
      rw [ea, eb, c5]
    · rw [if_pos h1] at ea
      rw [if_neg h2] at eb
      simp only [if_pos h1, if_neg h2]
      rw [ea, eb, c1, Nat.or_zero]
    · rw [if_neg h1] at ea
      rw [if_pos h2] at eb
      simp only [if_neg h1, if_pos h2]
      rw [ea, eb, c4, Nat.zero_or]
    · rw [if_neg h1] at ea
      rw [if_neg h2] at eb
      simp only [if_neg h1, if_neg h2]
      rw [ea, eb, c0, Nat.zero_or]
  refine ⟨?_, ?_, to_epoll_mask_no_other_bit H m, ?_, back, ?_⟩
  · rw [to_epoll_mask_eq]
    split_ifs <;> simp_all [EPOLLIN]
  · rw [to_epoll_mask_eq]
    split_ifs <;> simp_all [EPOLLOUT]
  · intro s fd tag k k' hk
    constructor
    · simp only [EPoll.insert]
      rw [hk s.e_fd EPOLL_CTL_ADD fd ⟨to_epoll_mask H m, tag⟩ (to_epoll_mask_no_other_bit H m)]
    · simp only [EPoll.modify]
      rw [hk s.e_fd EPOLL_CTL_MOD fd ⟨to_epoll_mask H m, tag⟩ (to_epoll_mask_no_other_bit H m)]
  · rw [back]

/-- The hypothesis of `to_epoll_mask_keeps_in_out` holds of the sample flags; the theorem is
applied to the interest mask `E_IN | E_ERROR`. -/
theorem to_epoll_mask_keeps_in_out_witness :
    sampleHeaders.SingleBits ∧
    (to_network_event_mask sampleHeaders (to_epoll_mask sampleHeaders 17)).1 =
      17 &&& (sampleHeaders.E_IN ||| sampleHeaders.E_OUT) :=
  ⟨sampleHeaders_singleBits,
    (to_epoll_mask_keeps_in_out sampleHeaders sampleHeaders_singleBits 17).2.2.2.2.1⟩

/-! ## The timeout of `poll` -/

theorem checked_convert_checked : sampleHeaders.ConvertChecked := by
  constructor
  · intro x h1 h2
    show checked_convert x = .ok x
    unfold checked_convert
    rw [if_pos ⟨h1, h2⟩]
  · intro x y h
    have h' : checked_convert x = .ok y := h
    unfold checked_convert at h'
    split_ifs at h' with hx
    · injection h' with e
      exact e.symm

/-- C3. The timeout that `poll` hands to `epoll_wait` is `-1` exactly for a negative nanosecond
count; for a non-negative count whose millisecond value fits in an `int` it is the non-negative
quotient `nsecs / MSec`; a zero period gives `0`; and `poll` consults the wait at no other
timeout. `MSec` is positive and `convert` is range checked. -/
theorem poll_timeout_infinite_iff_negative (H : Headers) (hM : 0 < H.MSec)
    (hC : H.ConvertChecked) (p : Period) :
    (poll_timeout H p = .ok (-1) ↔ p.nsecs < 0) ∧
    (0 ≤ p.nsecs → p.nsecs / H.MSec ≤ INT_MAX →
      poll_timeout H p = .ok (p.nsecs / H.MSec) ∧ 0 ≤ p.nsecs / H.MSec) ∧
    (p.nsecs = 0 → poll_timeout H p = .ok 0) ∧
    (∀ (s : EPoll) (epoll_wait : WaitCall) (t : Int), poll_timeout H p = .ok t →
      s.poll H p epoll_wait = s.poll H p (fun epfd maxevents _ => epoll_wait epfd maxevents t)) := by
  have q : 0 ≤ p.nsecs → Int.tdiv p.nsecs H.MSec = p.nsecs / H.MSec ∧ 0 ≤ p.nsecs / H.MSec := by
    intro h
    exact ⟨Int.tdiv_eq_ediv h (le_of_lt hM), Int.ediv_nonneg h (le_of_lt hM)⟩
  have fits : 0 ≤ p.nsecs → p.nsecs / H.MSec ≤ INT_MAX →
      poll_timeout H p = .ok (p.nsecs / H.MSec) ∧ 0 ≤ p.nsecs / H.MSec := by
    intro h hle
    obtain ⟨e, nn⟩ := q h
    refine ⟨?_, nn⟩
    unfold poll_timeout
    rw [if_neg (not_lt.mpr h), e]
    apply hC.1 _ _ hle
    unfold INT_MIN
    omega
  refine ⟨?_, fits, ?_, ?_⟩
  · constructor
    · intro h
      by_contra hn
      have h0 : 0 ≤ p.nsecs := not_lt.mp hn
      obtain ⟨e, nn⟩ := q h0
      unfold poll_timeout at h
      rw [if_neg hn, e] at h
      have := hC.2 _ _ h
      omega
    · intro h
      unfold poll_timeout
      rw [if_pos h]
  · intro h
    have := (fits (by omega) (by rw [h]; simp [INT_MAX])).1
    rw [h] at this
    simpa using this
  · intro s epoll_wait t ht
    simp only [EPoll.poll, ht]

/-- The hypotheses of `poll_timeout_infinite_iff_negative` hold of the sample headers; a period of
2.5 ms gives the timeout 2. -/
theorem poll_timeout_infinite_iff_negative_witness :
    0 < sampleHeaders.MSec ∧ sampleHeaders.ConvertChecked ∧
    poll_timeout sampleHeaders ⟨2500000⟩ = .ok 2 :=
  ⟨by decide, checked_convert_checked,
    ((poll_timeout_infinite_iff_negative sampleHeaders (by decide) checked_convert_checked
      ⟨2500000⟩).2.1 (by decide) (by decide)).1⟩

/-! ## The cursor: `empty`, `front`, `pop_front` -/

/-- C1. For every state of the poller, `front` and `pop_front` each fail with the fatal
exception exactly when `n_events == 0`, that is exactly when `empty` returns true; a failing
`pop_front` leaves the state unchanged (`front` is `const`); with events pending `pop_front`
returns normally and `front` raises no exception: it returns an event whenever the cursor is on a
slot of the buffer, and otherwise reads outside the buffer. -/
theorem front_pop_front_fatal_iff_empty (H : Headers) (s : EPoll) :
    (s.front H = .error .fatal ↔ s.n_events = 0) ∧
    (s.pop_front.1 = .error .fatal ↔ s.n_events = 0) ∧
    (s.empty = true ↔ s.n_events = 0) ∧
    (s.n_events = 0 → s.pop_front = (.error .fatal, s)) ∧
    (s.n_events ≠ 0 → s.pop_front.1 = .ok ()) ∧
    (s.n_events ≠ 0 → ∀ e, s.front H = .error e → e = .out_of_bounds) ∧
    (s.n_events ≠ 0 → s.current < s.events.length → ∃ ev, s.front H = .ok ev) := by
  refine ⟨?_, ?_, ?_, ?_, ?_, ?_, ?_⟩
  · unfold EPoll.front
    by_cases h : s.n_events = 0
    · simp [h]
    · simp only [if_neg h, h, iff_false]
      cases s.events.get? s.current <;> simp
  · unfold EPoll.pop_front
    by_cases h : s.n_events = 0 <;> simp [h]
  · simp [EPoll.empty]
  · intro h
    simp [EPoll.pop_front, h]
  · intro h
    simp [EPoll.pop_front, h]
  · intro h e he
    unfold EPoll.front at he
    rw [if_neg h] at he
    cases hg : s.events.get? s.current with
    | none =>
      rw [hg] at he
      injection he with he'
      exact he'.symm
    | some cur =>
      rw [hg] at he
      cases he
  · intro h hc
    unfold EPoll.front
    rw [if_neg h, List.get?_eq_get hc]
    exact ⟨_, rfl⟩

/-- The theorem `front_pop_front_fatal_iff_empty` applied to a poller with two pending events. -/
theorem front_pop_front_fatal_iff_empty_witness :
    pendingTwo.n_events ≠ 0 ∧ pendingTwo.current < pendingTwo.events.length ∧
    pendingTwo.pop_front.1 = .ok () ∧ ∃ ev, pendingTwo.front sampleHeaders = .ok ev :=
  ⟨by decide, by decide,
    (front_pop_front_fatal_iff_empty sampleHeaders pendingTwo).2.2.2.2.1 (by decide),
    (front_pop_front_fatal_iff_empty sampleHeaders pendingTwo).2.2.2.2.2.2 (by decide)
      (by decide)⟩

/-! ## A failed wait -/

theorem overwrite_length (b : List epoll_event) :
    ∀ evs : List epoll_event, (overwrite b evs).length = b.length := by
  induction b with
  | nil => intro evs; rfl
  | cons x xs ih =>
    intro evs
    cases evs with
    | nil => rfl
    | cons e es => simp [overwrite, ih es]

theorem overwrite_nil (b : List epoll_event) : overwrite b [] = b := by
  cases b <;> rfl

/-- C7. When the `epoll_wait` inside `poll` fails (returns `-1`), with `EINTR` or any other error
number, `poll` returns normally, sets `n_events` to `0` and the cursor to the end of the buffer,
so `empty` is true afterwards and `front` finds no event: what was pending is discarded. -/
theorem poll_failed_wait_returns_normally (H : Headers) (s : EPoll) (p : Period)
    (epoll_wait : WaitCall) (t errno : Int) (ht : poll_timeout H p = .ok t)
    (hw : epoll_wait s.e_fd (static_cast_int s.events.length) t = .failed errno) :
    (epoll_wait s.e_fd (static_cast_int s.events.length) t).ret = -1 ∧
    (s.poll H p epoll_wait).1 = .ok () ∧
    (s.poll H p epoll_wait).2.n_events = 0 ∧
    (s.poll H p epoll_wait).2.current = (s.poll H p epoll_wait).2.events.length ∧
    (s.poll H p epoll_wait).2.events = s.events ∧
    (s.poll H p epoll_wait).2.empty = true ∧
    (s.poll H p epoll_wait).2.front H = .error .fatal := by
  have e : s.poll H p epoll_wait =
      (.ok (), { s with events := s.events, n_events := 0, current := s.events.length }) := by
    simp [EPoll.poll, ht, hw, WaitOutcome.ret, WaitOutcome.stored, overwrite_nil]
  rw [e, hw]
  simp [WaitOutcome.ret, EPoll.empty, EPoll.front]

/-- The theorem `poll_failed_wait_returns_normally` applied to a poller with two pending events
whose wait is interrupted (`EINTR`). -/
theorem poll_failed_wait_returns_normally_witness :
    poll_timeout sampleHeaders ⟨-1⟩ = .ok (-1) ∧
    (pendingTwo.poll sampleHeaders ⟨-1⟩ (fun _ _ _ => .failed EINTR)).2.empty = true :=
  ⟨by decide,
    (poll_failed_wait_returns_normally sampleHeaders pendingTwo ⟨-1⟩ (fun _ _ _ => .failed EINTR)
      (-1) EINTR (by decide) rfl).2.2.2.2.2.1⟩

/-! ## Changing the registered set -/

theorem vector_resize_grow_one (v : List epoll_event) (h : v.length < vector_max_size) :
    vector_resize v (v.length + 1) = .ok (v ++ [⟨0, 0⟩]) := by
  unfold vector_resize
  rw [if_pos (Nat.lt_succ_self _), if_neg (by omega)]
  simp

theorem vector_resize_length (v w : List epoll_event) (n : Nat)
    (h : vector_resize v n = .ok w) : w.length = n := by
  unfold vector_resize at h
  split_ifs at h with h1 h2
  · injection h with e
    rw [← e]
    simp
    omega
  · injection h with e
    rw [← e]
    simp
    omega

theorem vector_resize_shrink_one (v : List epoll_event) (h : v ≠ []) :
    vector_resize v (size_t_sub v.length 1) = .ok (v.take (v.length - 1)) := by
  have hl : 1 ≤ v.length := by
    cases v with
    | nil => exact absurd rfl h
    | cons x xs => simp
  unfold vector_resize size_t_sub
  rw [if_pos hl, if_neg (by omega)]

/-- Counterexample to C10 as stated. Sixteen `erase` calls on a fresh poller, each with a failing
`epoll_ctl`, empty the event buffer; the next `erase` raises `length_error`. Besides, `modify`
raises when its `epoll_ctl` fails, so `insert` is not the only call that can fail. -/
theorem erase_raises_on_empty_buffer :
    EPoll.construct (fun _ => ⟨3, 0⟩) = .ok freshPoller ∧
    (Tally.run sampleHeaders ⟨freshPoller, 0, 0⟩
      (List.replicate 16 (Call.erase ⟨5, 0, 0⟩ ctlNoEnt))).s.events = [] ∧
    ((Tally.run sampleHeaders ⟨freshPoller, 0, 0⟩
      (List.replicate 16 (Call.erase ⟨5, 0, 0⟩ ctlNoEnt))).s.erase ⟨5, 0, 0⟩ ctlOk).1 =
        .error .length_error ∧
    (freshPoller.modify sampleHeaders ⟨5, 1, 0⟩ ctlNoEnt).1 = .error (.error 2) := by
  decide

/-- C10, amended. A returning `insert` grows the event buffer by one slot and leaves `empty`
true, and it does return when its `epoll_ctl` succeeds and the vector can grow; an `insert` whose
`epoll_ctl` fails raises and leaves the whole state unchanged; on a non-empty buffer `erase`
returns normally whether or not its `epoll_ctl` succeeds, shrinks the buffer by one slot and
leaves `empty` true; `modify` leaves the state as it is, and returns exactly when its `epoll_ctl`
succeeds. -/
theorem registered_set_change_discards_pending (H : Headers) (s : EPoll) (epe : PollEvent)
    (epoll_ctl : CtlCall) :
    (∀ s', s.insert H epe epoll_ctl = (.ok (), s') →
      s'.events.length = s.events.length + 1 ∧ s'.empty = true ∧
        s'.current = s'.events.length) ∧
    ((epoll_ctl s.e_fd EPOLL_CTL_ADD epe.fd ⟨to_epoll_mask H epe.events, epe.user_data⟩).ret = 0 →
      s.events.length < vector_max_size → (s.insert H epe epoll_ctl).1 = .ok ()) ∧
    ((epoll_ctl s.e_fd EPOLL_CTL_ADD epe.fd ⟨to_epoll_mask H epe.events, epe.user_data⟩).ret ≠ 0 →
      s.insert H epe epoll_ctl =
        (.error (.error (epoll_ctl s.e_fd EPOLL_CTL_ADD epe.fd
          ⟨to_epoll_mask H epe.events, epe.user_data⟩).errno), s)) ∧
    (s.events ≠ [] →
      (s.erase epe epoll_ctl).1 = .ok () ∧
      (s.erase epe epoll_ctl).2.events.length + 1 = s.events.length ∧
      (s.erase epe epoll_ctl).2.empty = true ∧
      (s.erase epe epoll_ctl).2.current = (s.erase epe epoll_ctl).2.events.length) ∧
    (s.modify H epe epoll_ctl).2 = s ∧
    ((s.modify H epe epoll_ctl).1 = .ok () ↔
      (epoll_ctl s.e_fd EPOLL_CTL_MOD epe.fd ⟨to_epoll_mask H epe.events, epe.user_data⟩).ret = 0)
    := by
  refine ⟨?_, ?_, ?_, ?_, ?_, ?_⟩
  · intro s' h
    unfold EPoll.insert at h
    simp only at h
    split_ifs at h with h1
    · simp at h
    · cases hr : vector_resize s.events (s.events.length + 1) with
      | error e => rw [hr] at h; simp at h
      | ok w =>
        rw [hr] at h
        have hl := vector_resize_length _ _ _ hr
        simp only [Prod.mk.injEq, true_and] at h
        subst h
        simp [EPoll.empty, hl]
  · intro h hl
    unfold EPoll.insert
    simp only [h, ne_eq, not_true_eq_false, if_false, vector_resize_grow_one _ hl]
  · intro h
    unfold EPoll.insert
    simp only [ne_eq, h, not_false_eq_true, if_true]
  · intro h
    have hl : 1 ≤ s.events.length := by
      cases hs : s.events with
      | nil => exact absurd hs h
      | cons x xs => simp
    unfold EPoll.erase
    simp only [vector_resize_shrink_one _ h]
    simp [EPoll.empty]
    omega
  · unfold EPoll.modify
    simp only
    split_ifs <;> rfl
  · unfold EPoll.modify
    simp only
    split_ifs with h1
    · simp
      exact h1
    · simp
      exact not_not.mp h1

/-- The theorem `registered_set_change_discards_pending` applied to a poller with two pending
events: `erase` with a failing `epoll_ctl` returns normally and leaves `empty` true. -/
theorem registered_set_change_discards_pending_witness :
    pendingTwo.events ≠ [] ∧
    (pendingTwo.erase ⟨5, 0, 0⟩ ctlNoEnt).1 = .ok () ∧
    (pendingTwo.erase ⟨5, 0, 0⟩ ctlNoEnt).2.empty = true ∧
    (pendingTwo.insert sampleHeaders ⟨5, 1, 9⟩ ctlOk).1 = .ok () :=
  ⟨by decide,
    ((registered_set_change_discards_pending sampleHeaders pendingTwo ⟨5, 0, 0⟩ ctlNoEnt).2.2.2.1
      (by decide)).1,
    ((registered_set_change_discards_pending sampleHeaders pendingTwo ⟨5, 0, 0⟩ ctlNoEnt).2.2.2.1
      (by decide)).2.2.1,
    (registered_set_change_discards_pending sampleHeaders pendingTwo ⟨5, 1, 9⟩ ctlOk).2.1
      (by decide) (by decide)⟩

/-! ## Draining the cursor after a wait -/

theorem overwrite_get (b : List epoll_event) :
    ∀ (evs : List epoll_event) (i : Nat), i < evs.length → i < b.length →
      (overwrite b evs).get? i = evs.get? i := by
  induction b with
  | nil => intro evs i _ hb; simp at hb
  | cons x xs ih =>
    intro evs i he hb
    cases evs with
    | nil => simp at he
    | cons e es =>
      cases i with
      | zero => simp [overwrite]
      | succ j =>
        simp only [overwrite, List.get?_cons_succ]
        exact ih es j (by simpa using he) (by simpa using hb)

theorem pop_front_n_add (k : Nat) : ∀ (j : Nat) (s : EPoll),
    EPoll.pop_front_n (k + j) s = EPoll.pop_front_n j (EPoll.pop_front_n k s) := by
  induction k with
  | zero => intro j s; simp [EPoll.pop_front_n]
  | succ n ih =>
    intro j s
    rw [Nat.add_right_comm]
    simp only [EPoll.pop_front_n]
    exact ih j _

theorem pop_front_n_of_empty : ∀ (j : Nat) (s : EPoll), s.n_events = 0 →
    EPoll.pop_front_n j s = s := by
  intro j
  induction j with
  | zero => intro s _; rfl
  | succ n ih =>
    intro s h
    have e : s.pop_front = (.error .fatal, s) := by simp [EPoll.pop_front, h]
    simp only [EPoll.pop_front_n, e]
    exact ih s h

/-- While events are pending, `i` calls of `pop_front` take `i` from `n_events` and move the
cursor `i` slots on. -/
theorem pop_front_n_pending : ∀ (i : Nat) (s : EPoll), (i : Int) ≤ s.n_events →
    EPoll.pop_front_n i s =
      { s with n_events := s.n_events - i, current := s.current + i } := by
  intro i
  induction i with
  | zero => intro s _; simp [EPoll.pop_front_n]
  | succ n ih =>
    intro s h
    have hne : s.n_events ≠ 0 := by push_cast at h; omega
    have e : s.pop_front =
        (.ok (), { s with n_events := s.n_events - 1, current := s.current + 1 }) := by
      simp [EPoll.pop_front, hne]
    simp only [EPoll.pop_front_n, e]
    rw [ih _ (by push_cast at h; simp only; omega)]
    simp only [EPoll.mk.injEq, true_and]
    constructor
    · push_cast; omega
    · omega

/-- State that `poll` leaves when the wait stores the events `evs`. -/
theorem poll_ready (H : Headers) (s : EPoll) (p : Period) (epoll_wait : WaitCall) (t : Int)
    (evs : List epoll_event) (ht : poll_timeout H p = .ok t)
    (hw : epoll_wait s.e_fd (static_cast_int s.events.length) t = .ready evs) :
    s.poll H p epoll_wait =
      (.ok (), { s with events := overwrite s.events evs, n_events := evs.length,
                        current := 0 }) := by
  have hne : ¬ ((evs.length : Int) = -1) := by omega
  simp [EPoll.poll, ht, hw, WaitOutcome.ret, WaitOutcome.stored, hne]

/-- What `front` and `empty` give after `i` calls of `pop_front`, for a cursor that stands on
the first slot with `k` events pending. -/
theorem front_after_pops (H : Headers) (s : EPoll) (k : Nat) (hn : s.n_events = k)
    (hc : s.current = 0) (i : Nat) :
    (i < k → (s.pop_front_n i).front H =
      match s.events.get? i with
      | none => .error .out_of_bounds
      | some cur => .ok ⟨-1, (to_network_event_mask H cur.events).1, cur.data⟩) ∧
    (i < k → (s.pop_front_n i).empty = false ∧ (s.pop_front_n i).pop_front.1 = .ok ()) ∧
    (k ≤ i → (s.pop_front_n i).front H = .error .fatal ∧ (s.pop_front_n i).empty = true) := by
  refine ⟨?_, ?_, ?_⟩
  · intro hi
    rw [pop_front_n_pending i s (by rw [hn]; exact_mod_cast le_of_lt hi)]
    have hne : ¬ (s.n_events - (i : Int) = 0) := by rw [hn]; omega
    simp only [EPoll.front, hne, if_false, hc, Nat.zero_add]
  · intro hi
    rw [pop_front_n_pending i s (by rw [hn]; exact_mod_cast le_of_lt hi)]
    have hne : ¬ (s.n_events - (i : Int) = 0) := by rw [hn]; omega
    simp [EPoll.empty, EPoll.pop_front, hne]
  · intro hi
    obtain ⟨j, rfl⟩ := Nat.exists_eq_add_of_le hi
    have hk := pop_front_n_pending k s (by rw [hn])
    have h0 : (EPoll.pop_front_n k s).n_events = 0 := by rw [hk]; simp [hn]
    rw [pop_front_n_add, pop_front_n_of_empty j _ h0]
    simp [EPoll.front, EPoll.empty, h0]


/-- C2. When the wait of a `poll` stores `k` ready events (`k` at most the buffer length), the
cursor yields exactly those events in buffer order: for each `i < k`, after `i` calls of
`pop_front`, `front` returns descriptor `-1`, the mask `to_network_event_mask(events[i].events)`
and the user tag `events[i].data`; `front` leaves the state as it is; `empty` is false and
`pop_front` returns normally before the `k`-th `pop_front`, and `empty` is true after it. -/
theorem poll_yields_ready_events_in_order (H : Headers) (s : EPoll) (p : Period)
    (epoll_wait : WaitCall) (t : Int) (evs : List epoll_event)
    (ht : poll_timeout H p = .ok t)
    (hw : epoll_wait s.e_fd (static_cast_int s.events.length) t = .ready evs)
    (hk : evs.length ≤ s.events.length) :
    (s.poll H p epoll_wait).1 = .ok () ∧
    (∀ i, i < evs.length → ∃ ev,
      evs.get? i = some ev ∧ (s.poll H p epoll_wait).2.events.get? i = some ev ∧
      ((s.poll H p epoll_wait).2.pop_front_n i).front H =
        .ok ⟨-1, (to_network_event_mask H ev.events).1, ev.data⟩ ∧
      (Call.apply H ((s.poll H p epoll_wait).2.pop_front_n i) .front).2 =
        (s.poll H p epoll_wait).2.pop_front_n i ∧
      ((s.poll H p epoll_wait).2.pop_front_n i).empty = false ∧
      ((s.poll H p epoll_wait).2.pop_front_n i).pop_front.1 = .ok ()) ∧
    ((s.poll H p epoll_wait).2.pop_front_n evs.length).empty = true := by
  rw [poll_ready H s p epoll_wait t evs ht hw]
  refine ⟨rfl, ?_, ?_⟩
  · intro i hi
    have hget : (overwrite s.events evs).get? i = evs.get? i :=
      overwrite_get s.events evs i hi (lt_of_lt_of_le hi hk)
    obtain ⟨f1, f2, _⟩ := front_after_pops H
      { s with events := overwrite s.events evs, n_events := evs.length, current := 0 }
      evs.length rfl rfl i
    refine ⟨evs.get ⟨i, hi⟩, List.get?_eq_get hi, ?_, ?_, ?_, (f2 hi).1, (f2 hi).2⟩
    · simp only
      rw [hget, List.get?_eq_get hi]
    · rw [f1 hi]
      simp only
      rw [hget, List.get?_eq_get hi]
    · simp only [Call.apply]
      split <;> rfl
  · exact ((front_after_pops H
      { s with events := overwrite s.events evs, n_events := evs.length, current := 0 }
      evs.length rfl rfl evs.length).2.2 (le_refl _)).2

/-- The theorem `poll_yields_ready_events_in_order` applied to a fresh poller whose wait stores
two events: after one `pop_front`, `front` returns the second one. -/
theorem poll_yields_ready_events_in_order_witness :
    poll_timeout sampleHeaders ⟨5000000⟩ = .ok 5 ∧
    ((freshPoller.poll sampleHeaders ⟨5000000⟩
      (fun _ _ _ => .ready [⟨1, 7⟩, ⟨0x19, 8⟩])).2.pop_front_n 2).empty = true :=
  ⟨by decide,
    (poll_yields_ready_events_in_order sampleHeaders freshPoller ⟨5000000⟩
      (fun _ _ _ => .ready [⟨1, 7⟩, ⟨0x19, 8⟩]) 5 [⟨1, 7⟩, ⟨0x19, 8⟩] (by decide) rfl
      (by decide)).2.2⟩

/-- C6. Whatever is still undrained and wherever the cursor stands, a `poll` whose wait stores
`k` events returns normally and leaves `n_events == k` and the cursor on the first slot; a second
poller in any other state whose wait stores the same events ends with the same `n_events` and
cursor, and (the events fitting both buffers) `front` and `empty` answer the same after any number
of `pop_front` calls, so nothing of the earlier contents can be reached. -/
theorem poll_restarts_cursor (H : Headers) (s : EPoll) (p : Period)
    (epoll_wait : WaitCall) (t : Int) (evs : List epoll_event)
    (ht : poll_timeout H p = .ok t)
    (hw : epoll_wait s.e_fd (static_cast_int s.events.length) t = .ready evs) :
    (s.poll H p epoll_wait).1 = .ok () ∧
    (s.poll H p epoll_wait).2.n_events = evs.length ∧
    (s.poll H p epoll_wait).2.current = 0 ∧
    (∀ (s₂ : EPoll) (p₂ : Period) (wait₂ : WaitCall) (t₂ : Int),
      poll_timeout H p₂ = .ok t₂ →
      wait₂ s₂.e_fd (static_cast_int s₂.events.length) t₂ = .ready evs →
      (s₂.poll H p₂ wait₂).2.n_events = (s.poll H p epoll_wait).2.n_events ∧
      (s₂.poll H p₂ wait₂).2.current = (s.poll H p epoll_wait).2.current ∧
      (evs.length ≤ s.events.length → evs.length ≤ s₂.events.length → ∀ i : Nat,
        ((s₂.poll H p₂ wait₂).2.pop_front_n i).front H =
          ((s.poll H p epoll_wait).2.pop_front_n i).front H ∧
        ((s₂.poll H p₂ wait₂).2.pop_front_n i).empty =
          ((s.poll H p epoll_wait).2.pop_front_n i).empty)) := by
  rw [poll_ready H s p epoll_wait t evs ht hw]
  refine ⟨rfl, rfl, rfl, ?_⟩
  intro s₂ p₂ wait₂ t₂ ht₂ hw₂
  rw [poll_ready H s₂ p₂ wait₂ t₂ evs ht₂ hw₂]
  refine ⟨rfl, rfl, ?_⟩
  intro hk hk₂ i
  obtain ⟨a1, a2, a3⟩ := front_after_pops H
    { s with events := overwrite s.events evs, n_events := evs.length, current := 0 }
    evs.length rfl rfl i
  obtain ⟨b1, b2, b3⟩ := front_after_pops H
    { s₂ with events := overwrite s₂.events evs, n_events := evs.length, current := 0 }
    evs.length rfl rfl i
  by_cases hi : i < evs.length
  · rw [a1 hi, b1 hi, (a2 hi).1, (b2 hi).1]
    simp only
    rw [overwrite_get s.events evs i hi (lt_of_lt_of_le hi hk),
      overwrite_get s₂.events evs i hi (lt_of_lt_of_le hi hk₂)]
    constructor <;> first | rfl | trivial
  · have hi' : evs.length ≤ i := not_lt.mp hi
    rw [(a3 hi').1, (b3 hi').1, (a3 hi').2, (b3 hi').2]
    exact ⟨rfl, rfl⟩

/-- The theorem `poll_restarts_cursor` applied to a poller with two undrained events whose next
wait stores one event. -/
theorem poll_restarts_cursor_witness :
    poll_timeout sampleHeaders ⟨0⟩ = .ok 0 ∧
    (pendingTwo.poll sampleHeaders ⟨0⟩ (fun _ _ _ => .ready [⟨4, 9⟩])).2.n_events = 1 ∧
    (pendingTwo.poll sampleHeaders ⟨0⟩ (fun _ _ _ => .ready [⟨4, 9⟩])).2.current = 0 :=
  ⟨by decide,
    (poll_restarts_cursor sampleHeaders pendingTwo ⟨0⟩ (fun _ _ _ => .ready [⟨4, 9⟩]) 0
      [⟨4, 9⟩] (by decide) rfl).2.1,
    (poll_restarts_cursor sampleHeaders pendingTwo ⟨0⟩ (fun _ _ _ => .ready [⟨4, 9⟩]) 0
      [⟨4, 9⟩] (by decide) rfl).2.2.1⟩


/-! ## The cursor stays inside the buffer -/

theorem static_cast_int_le (n : Nat) : static_cast_int n ≤ (n : Int) := by
  unfold static_cast_int
  omega

theorem insert_cases (H : Headers) (s : EPoll) (epe : PollEvent) (epoll_ctl : CtlCall) :
    (∃ w, w.length = s.events.length + 1 ∧ s.insert H epe epoll_ctl =
      (.ok (), { s with events := w, current := w.length, n_events := 0 })) ∨
    ∃ e, s.insert H epe epoll_ctl = (.error e, s) := by
  unfold EPoll.insert
  simp only
  split_ifs with h1
  · exact Or.inr ⟨_, rfl⟩
  · cases hr : vector_resize s.events (s.events.length + 1) with
    | error e => exact Or.inr ⟨e, rfl⟩
    | ok w => exact Or.inl ⟨w, vector_resize_length _ _ _ hr, rfl⟩

theorem erase_nonempty (s : EPoll) (epe : PollEvent) (epoll_ctl : CtlCall) (h : s.events ≠ []) :
    s.erase epe epoll_ctl =
      (.ok (), { s with events := s.events.take (s.events.length - 1),
                        current := (s.events.take (s.events.length - 1)).length,
                        n_events := 0 }) := by
  unfold EPoll.erase
  simp only [vector_resize_shrink_one _ h]

theorem modify_state (H : Headers) (s : EPoll) (epe : PollEvent) (epoll_ctl : CtlCall) :
    (s.modify H epe epoll_ctl).2 = s := by
  unfold EPoll.modify
  simp only
  split_ifs <;> rfl

/-- One admitted call keeps the three bounds. -/
theorem step_keeps_bounds (H : Headers) (t : Tally) (c : Call)
    (hlen : t.s.events.length + t.erased = 16 + t.inserted)
    (hnn : 0 ≤ t.s.n_events)
    (hcur : (t.s.current : Int) + t.s.n_events ≤ t.s.events.length)
    (hadm : t.admits H c = true) :
    (t.step H c).s.events.length + (t.step H c).erased = 16 + (t.step H c).inserted ∧
    0 ≤ (t.step H c).s.n_events ∧
    (((t.step H c).s.current : Int) + (t.step H c).s.n_events ≤
      (t.step H c).s.events.length) := by
  cases c with
  | insert epe k =>
    rcases insert_cases H t.s epe k with ⟨w, hw, e⟩ | ⟨e', e⟩
    · simp only [Tally.step, e, hw]
      refine ⟨by omega, le_refl _, by simp⟩
    · simp only [Tally.step, e]
      exact ⟨hlen, hnn, hcur⟩
  | erase epe k =>
    have hlt : t.erased < t.inserted := by simpa [Tally.admits] using hadm
    have hne : t.s.events ≠ [] := by
      intro h0
      rw [h0] at hlen
      simp at hlen
      omega
    simp only [Tally.step, erase_nonempty t.s epe k hne, List.length_take]
    refine ⟨by omega, le_refl _, by simp⟩
  | modify epe k =>
    simp only [Tally.step, Call.apply, modify_state]
    exact ⟨hlen, hnn, hcur⟩
  | poll p w =>
    simp only [Tally.step, Call.apply]
    cases ht : poll_timeout H p with
    | error e =>
      have e' : t.s.poll H p w = (.error e, t.s) := by simp [EPoll.poll, ht]
      rw [e']
      exact ⟨hlen, hnn, hcur⟩
    | ok tm =>
      cases hw : w t.s.e_fd (static_cast_int t.s.events.length) tm with
      | failed errno =>
        have e' : t.s.poll H p w =
            (.ok (), { t.s with events := t.s.events, n_events := 0,
                                current := t.s.events.length }) := by
          simp [EPoll.poll, ht, hw, WaitOutcome.ret, WaitOutcome.stored, overwrite_nil]
        rw [e']
        refine ⟨hlen, le_refl _, by simp⟩
      | ready evs =>
        rw [poll_ready H t.s p w tm evs ht hw]
        have hb : (evs.length : Int) ≤ static_cast_int t.s.events.length := by
          simpa [Tally.admits, ht, hw, WaitOutcome.ret] using hadm
        have hb' := static_cast_int_le t.s.events.length
        simp only [overwrite_length]
        refine ⟨hlen, by omega, by push_cast; omega⟩
  | front =>
    have e' : (Call.apply H t.s .front).2 = t.s := by
      simp only [Call.apply]
      split <;> rfl
    simp only [Tally.step, e']
    exact ⟨hlen, hnn, hcur⟩
  | pop_front =>
    simp only [Tally.step, Call.apply]
    by_cases h0 : t.s.n_events = 0
    · have e' : t.s.pop_front = (.error .fatal, t.s) := by simp [EPoll.pop_front, h0]
      rw [e']
      exact ⟨hlen, hnn, hcur⟩
    · have e' : t.s.pop_front =
          (.ok (), { t.s with n_events := t.s.n_events - 1, current := t.s.current + 1 }) := by
        simp [EPoll.pop_front, h0]
      rw [e']
      refine ⟨hlen, by simp only; omega, by simp only; push_cast; omega⟩

/-- A sequence of admitted calls keeps the three bounds. -/
theorem run_keeps_bounds (H : Headers) (cs : List Call) : ∀ t : Tally,
    t.s.events.length + t.erased = 16 + t.inserted → 0 ≤ t.s.n_events →
    (t.s.current : Int) + t.s.n_events ≤ t.s.events.length →
    Tally.admitsAll H t cs = true →
    (Tally.run H t cs).s.events.length + (Tally.run H t cs).erased =
      16 + (Tally.run H t cs).inserted ∧
    0 ≤ (Tally.run H t cs).s.n_events ∧
    (((Tally.run H t cs).s.current : Int) + (Tally.run H t cs).s.n_events ≤
      (Tally.run H t cs).s.events.length) := by
  induction cs with
  | nil => intro t h1 h2 h3 _; exact ⟨h1, h2, h3⟩
  | cons c cs ih =>
    intro t h1 h2 h3 hadm
    simp only [Tally.admitsAll, Bool.and_eq_true] at hadm
    obtain ⟨g1, g2, g3⟩ := step_keeps_bounds H t c h1 h2 h3 hadm.1
    exact ih (t.step H c) g1 g2 g3 hadm.2

/-- A sequence of admitted calls never makes more `erase` calls than `insert` calls returned. -/
theorem run_keeps_count (H : Headers) (cs : List Call) : ∀ t : Tally,
    t.erased ≤ t.inserted → Tally.admitsAll H t cs = true →
    (Tally.run H t cs).erased ≤ (Tally.run H t cs).inserted := by
  induction cs with
  | nil => intro t h _; exact h
  | cons c cs ih =>
    intro t h hadm
    simp only [Tally.admitsAll, Bool.and_eq_true] at hadm
    refine ih (t.step H c) ?_ hadm.2
    cases c with
    | insert epe k =>
      rcases insert_cases H t.s epe k with ⟨w, _, e⟩ | ⟨e', e⟩
      · simp only [Tally.step, e]; omega
      · simp only [Tally.step, e]; exact h
    | erase epe k =>
      have hlt : t.erased < t.inserted := by simpa [Tally.admits] using hadm.1
      simp only [Tally.step]
      omega
    | modify epe k => exact h
    | poll p w => exact h
    | front => exact h
    | pop_front => exact h

/-- C9. Starting from a freshly constructed poller, after every sequence of `insert`, `erase`,
`modify`, `poll`, `front` and `pop_front` calls in which no `erase` is made while the `erase`
calls already equal the `insert` calls that returned, and no wait reports more events than the
`maxevents` it was given: the buffer length is `16 + inserts - erases`, `n_events >= 0`, and
cursor plus `n_events` does not exceed the buffer length; hence when `empty` is false the slot
that `front` reads is inside the buffer and `front` returns an event. -/
theorem cursor_stays_in_buffer (H : Headers) (epoll_create : Int → SysResult) (s₀ : EPoll)
    (h₀ : EPoll.construct epoll_create = .ok s₀) (cs : List Call)
    (hadm : Tally.admitsAll H ⟨s₀, 0, 0⟩ cs = true) :
    (Tally.run H ⟨s₀, 0, 0⟩ cs).s.events.length + (Tally.run H ⟨s₀, 0, 0⟩ cs).erased =
      16 + (Tally.run H ⟨s₀, 0, 0⟩ cs).inserted ∧
    (Tally.run H ⟨s₀, 0, 0⟩ cs).erased ≤ (Tally.run H ⟨s₀, 0, 0⟩ cs).inserted ∧
    0 ≤ (Tally.run H ⟨s₀, 0, 0⟩ cs).s.n_events ∧
    (((Tally.run H ⟨s₀, 0, 0⟩ cs).s.current : Int) + (Tally.run H ⟨s₀, 0, 0⟩ cs).s.n_events ≤
      (Tally.run H ⟨s₀, 0, 0⟩ cs).s.events.length) ∧
    ((Tally.run H ⟨s₀, 0, 0⟩ cs).s.empty = false →
      (Tally.run H ⟨s₀, 0, 0⟩ cs).s.current < (Tally.run H ⟨s₀, 0, 0⟩ cs).s.events.length ∧
      ∃ ev, (Tally.run H ⟨s₀, 0, 0⟩ cs).s.front H = .ok ev) := by
  have hs : s₀.events.length = 16 ∧ s₀.n_events = 0 ∧ s₀.current = 16 := by
    unfold EPoll.construct at h₀
    simp only at h₀
    split_ifs at h₀
    injection h₀ with e
    rw [← e]
    simp
  obtain ⟨g1, g2, g3⟩ := run_keeps_bounds H cs ⟨s₀, 0, 0⟩ (by simp [hs.1])
    (by simp [hs.2.1]) (by simp [hs.2.1, hs.2.2, hs.1]) hadm
  refine ⟨g1, ?_, g2, g3, ?_⟩
  · exact run_keeps_count H cs ⟨s₀, 0, 0⟩ (le_refl _) hadm
  · intro he
    have hne : (Tally.run H ⟨s₀, 0, 0⟩ cs).s.n_events ≠ 0 := by
      simpa [EPoll.empty] using he
    have hlt : (Tally.run H ⟨s₀, 0, 0⟩ cs).s.current <
        (Tally.run H ⟨s₀, 0, 0⟩ cs).s.events.length := by omega
    refine ⟨hlt, ?_⟩
    unfold EPoll.front
    rw [if_neg hne, List.get?_eq_get hlt]
    exact ⟨_, rfl⟩

/-- The theorem `cursor_stays_in_buffer` applied to the sample sequence of calls on a poller
constructed with descriptor 3. -/
theorem cursor_stays_in_buffer_witness :
    EPoll.construct (fun _ => ⟨3, 0⟩) = .ok freshPoller ∧
    Tally.admitsAll sampleHeaders ⟨freshPoller, 0, 0⟩ sampleCalls = true ∧
    (Tally.run sampleHeaders ⟨freshPoller, 0, 0⟩ sampleCalls).s.events.length +
      (Tally.run sampleHeaders ⟨freshPoller, 0, 0⟩ sampleCalls).erased =
        16 + (Tally.run sampleHeaders ⟨freshPoller, 0, 0⟩ sampleCalls).inserted :=
  ⟨by decide, by decide,
    (cursor_stays_in_buffer sampleHeaders (fun _ => ⟨3, 0⟩) freshPoller (by decide) sampleCalls
      (by decide)).1⟩

end gu.net

namespace gcs

/-! ## Fragmentation and reassembly -/

theorem fragment_loop_spec (frag_size act_id act_type : Nat) (hf : 0 < frag_size) :
    ∀ (fuel frag_no : Nat) (rest acc : List Nat), rest.length < fuel →
      (∀ f ∈ fragment_loop frag_size act_id act_type fuel frag_no rest,
        f.payload.length ≤ frag_size) ∧
      ((fragment_loop frag_size act_id act_type fuel frag_no rest).map
        (fun f => f.payload.length)).sum = rest.length ∧
      defrag_loop frag_no acc (fragment_loop frag_size act_id act_type fuel frag_no rest) =
        .ok (acc ++ rest, act_type) := by
  intro fuel
  induction fuel with
  | zero => intro frag_no rest acc h; omega
  | succ n ih =>
    intro frag_no rest acc h
    unfold fragment_loop
    by_cases hle : rest.length ≤ frag_size
    · rw [if_pos hle]
      refine ⟨?_, ?_, ?_⟩
      · intro f hfm
        simp only [List.mem_singleton] at hfm
        rw [hfm]
        exact hle
      · simp
      · simp [defrag_loop]
    · rw [if_neg hle]
      have hlen : (rest.drop frag_size).length < n := by
        rw [List.length_drop]
        omega
      obtain ⟨i1, i2, i3⟩ := ih (frag_no + 1) (rest.drop frag_size)
        (acc ++ rest.take frag_size) hlen
      refine ⟨?_, ?_, ?_⟩
      · intro f hfm
        rcases List.mem_cons.mp hfm with h1 | h1
        · rw [h1]
          simp only [List.length_take]
          omega
        · exact i1 f h1
      · simp only [List.map_cons, List.sum_cons, i2, List.length_take, List.length_drop]
        omega
      · simp only [defrag_loop, ne_eq, not_true_eq_false, if_false, Bool.false_eq_true]
        rw [i3, List.append_assoc, List.take_append_drop]

/-- C5. For a session whose minimum packet size exceeds the header overhead, any packet size `S`
at or above that minimum and any action payload: `gcs_core_set_pkt_size S` returns a fragment
payload size that is positive and at most `S` minus the header overhead; `gcs_core_send` reports
all bytes of the payload sent and splits it into fragments of at most that size; and
`gcs_core_recv` on those fragments returns the size of the payload, exactly its bytes in the
original order, and its type. -/
theorem fragment_reassemble_round_trip (core : gcs_core)
    (hmin : core.hdr_size < core.min_pkt_size) (S : Nat) (hS : core.min_pkt_size ≤ S)
    (action : List Nat) (act_type : Nat) :
    ∃ frag_size, (gcs_core_set_pkt_size core S).1 = .ok frag_size ∧
      0 < frag_size ∧ frag_size ≤ S - core.hdr_size ∧
      (gcs_core_set_pkt_size core S).2.frag_size = frag_size ∧
      (gcs_core_send (gcs_core_set_pkt_size core S).2 action act_type).1 = .ok action.length ∧
      (∀ f ∈ (gcs_core_send (gcs_core_set_pkt_size core S).2 action act_type).2.1,
        f.payload.length ≤ frag_size) ∧
      gcs_core_recv (gcs_core_send (gcs_core_set_pkt_size core S).2 action act_type).2.1 =
        .ok (action.length, action, act_type) := by
  have e : gcs_core_set_pkt_size core S =
      (.ok (S - core.hdr_size), { core with frag_size := S - core.hdr_size }) := by
    unfold gcs_core_set_pkt_size
    rw [if_neg (by omega)]
  have hpos : 0 < S - core.hdr_size := by omega
  obtain ⟨i1, i2, i3⟩ := fragment_loop_spec (S - core.hdr_size) core.next_act_id act_type hpos
    (action.length + 1) 0 action [] (Nat.lt_succ_self _)
  refine ⟨S - core.hdr_size, ?_, hpos, le_refl _, ?_, ?_, ?_, ?_⟩
  · rw [e]
  · rw [e]
  · rw [e]
    simp only [gcs_core_send, i2]
  · rw [e]
    exact i1
  · rw [e]
    simp only [gcs_core_send, gcs_core_recv, i3, List.nil_append]

/-- The theorem `fragment_reassemble_round_trip` applied to a nine-byte action and packets of 24
bytes, that is fragments of four bytes. -/
theorem fragment_reassemble_round_trip_witness :
    sampleCore.hdr_size < sampleCore.min_pkt_size ∧ sampleCore.min_pkt_size ≤ 24 ∧
    ∃ frag_size, (gcs_core_set_pkt_size sampleCore 24).1 = .ok frag_size ∧
      0 < frag_size ∧ frag_size ≤ 24 - sampleCore.hdr_size ∧
      (gcs_core_set_pkt_size sampleCore 24).2.frag_size = frag_size ∧
      (gcs_core_send (gcs_core_set_pkt_size sampleCore 24).2 [1, 2, 3, 4, 5, 6, 7, 8, 9] 1).1 =
        .ok 9 ∧
      (∀ f ∈ (gcs_core_send (gcs_core_set_pkt_size sampleCore 24).2
          [1, 2, 3, 4, 5, 6, 7, 8, 9] 1).2.1, f.payload.length ≤ frag_size) ∧
      gcs_core_recv (gcs_core_send (gcs_core_set_pkt_size sampleCore 24).2
          [1, 2, 3, 4, 5, 6, 7, 8, 9] 1).2.1 = .ok (9, [1, 2, 3, 4, 5, 6, 7, 8, 9], 1) :=
  ⟨by decide, by decide,
    fragment_reassemble_round_trip sampleCore (by decide) 24 (by decide)
      [1, 2, 3, 4, 5, 6, 7, 8, 9] 1⟩

end gcs
